import Mathlib

/-!
Verification of the interval algebra of `gpt-common/src/interval.rs`:
a `Boundary`-aware interval type (`Interval`) and a finite union of
intervals (`MultiInterval`) with intersection and complement.

Endpoint values are modelled by `EF`: the `f32` values used by the code,
restricted to negative infinity, finite values (represented as rationals,
since the code only compares endpoints and never does arithmetic on them),
and positive infinity.  NaN is excluded: the code treats a NaN endpoint as
a fatal internal-consistency violation.
-/

namespace GptCommon

/-- Endpoint domain: `f32::NEG_INFINITY`, a finite value, or `f32::INFINITY`. -/
inductive EF where
  | negInf : EF
  | fin : ℚ → EF
  | posInf : EF
  deriving DecidableEq

/-- The `<` comparison of `f32`, restricted to non-NaN values. -/
def EF.lt : EF → EF → Bool
  | .negInf, .negInf => false
  | .negInf, .fin _ => true
  | .negInf, .posInf => true
  | .fin _, .negInf => false
  | .fin a, .fin b => decide (a < b)
  | .fin _, .posInf => true
  | .posInf, .negInf => false
  | .posInf, .fin _ => false
  | .posInf, .posInf => false

/-- The `>` comparison of `f32`, restricted to non-NaN values. -/
def EF.gt (a b : EF) : Bool := EF.lt b a

/-- Rust `enum Boundary { Open, Closed }`. -/
inductive Boundary where
  | Open : Boundary
  | Closed : Boundary
  deriving DecidableEq

/-- Rust `Boundary::inverse`, swapping Open and Closed. -/
def Boundary.inverse : Boundary → Boundary
  | .Open => .Closed
  | .Closed => .Open

/-- Rust `struct Interval`, one interval with boundaries and lo and hi values. -/
@[ext]
structure Interval where
  lo_boundary : Boundary
  lo : EF
  hi : EF
  hi_boundary : Boundary
  deriving DecidableEq

/-- Rust `enum IntervalError`. -/
inductive IntervalError where
  | LoIsGreaterThanHi : IntervalError
  deriving DecidableEq

/-- Rust `Interval::new`: fails when `lo > hi`, otherwise returns the fields unchanged. -/
def Interval.new (lo_boundary : Boundary) (lo hi : EF) (hi_boundary : Boundary) :
    Except IntervalError Interval :=
  if EF.gt lo hi then .error .LoIsGreaterThanHi
  else .ok ⟨lo_boundary, lo, hi, hi_boundary⟩

/-- Rust `Interval::contains_point`. -/
def Interval.containsPoint (s : Interval) (point : EF) : Bool :=
  (EF.lt s.lo point && EF.lt point s.hi)
    || (decide (s.lo = point) && decide (s.lo_boundary = Boundary.Closed))
    || (decide (s.hi = point) && decide (s.hi_boundary = Boundary.Closed))

/-- Rust `Interval::intersects_with` (impl Intersectable for Interval). -/
def Interval.intersectsWith (s o : Interval) : Bool :=
  let doesnt_intersect :=
    (EF.gt s.lo o.hi || EF.gt o.lo s.hi)
      || (decide (s.lo = o.hi)
          && (decide (s.lo_boundary = Boundary.Open) || decide (o.hi_boundary = Boundary.Open)))
      || (decide (o.lo = s.hi)
          && (decide (o.lo_boundary = Boundary.Open) || decide (s.hi_boundary = Boundary.Open)))
  !doesnt_intersect

/-- Rust `Interval::intersect` (impl Intersectable for Interval). -/
def Interval.intersect (s o : Interval) : Option Interval :=
  if !s.intersectsWith o then none
  else
    let bigger_lo := if EF.gt s.lo o.lo then s else o
    let smaller_hi := if EF.lt s.hi o.hi then s else o
    some ⟨bigger_lo.lo_boundary, bigger_lo.lo, smaller_hi.hi, smaller_hi.hi_boundary⟩

/-- Rust `struct MultiInterval`: the (claimed sorted, non-overlapping) list of intervals. -/
structure MultiInterval where
  intervals : List Interval
  deriving DecidableEq

/-- The interval built by the closure inside `MultiInterval::inverse` for one
adjacent pair produced by `windows(2)`. -/
def gapOf (a b : Interval) : Interval :=
  ⟨a.hi_boundary.inverse, a.hi, b.lo, b.lo_boundary.inverse⟩

/-- Model of `self.intervals.windows(2).map(...)` in `MultiInterval::inverse`:
the list of gap intervals of adjacent pairs. -/
def windowsGaps : List Interval → List Interval
  | a :: b :: rest => gapOf a b :: windowsGaps (b :: rest)
  | _ => []

/-- The interval `(-Inf, Inf)`. -/
def fullInterval : Interval := ⟨.Open, .negInf, .posInf, .Open⟩

/-- Rust `MultiInterval::inverse`.  `rest.getLastD first` is the last element of
`first :: rest`, i.e. the interval read by `highest_hi`/`highest_boundary`;
`first` is the one read by `lowest_lo`/`lowest_boundary`. -/
def MultiInterval.inverse (m : MultiInterval) : MultiInterval :=
  match m.intervals with
  | [] => ⟨[fullInterval]⟩
  | first :: rest =>
    let lastI := rest.getLastD first
    let leftTail : List Interval :=
      if first.lo ≠ EF.negInf
        then [⟨.Open, .negInf, first.lo, first.lo_boundary.inverse⟩] else []
    let rightTail : List Interval :=
      if lastI.hi ≠ EF.posInf
        then [⟨lastI.hi_boundary.inverse, lastI.hi, EF.posInf, .Open⟩] else []
    ⟨leftTail ++ windowsGaps (first :: rest) ++ rightTail⟩

/-- Rust `MultiInterval::intersects_with` (impl Intersectable for MultiInterval):
the pairwise any-any scan. -/
def MultiInterval.intersectsWith (s o : MultiInterval) : Bool :=
  s.intervals.any fun x => o.intervals.any fun y => x.intersectsWith y

/-- Ordering of two intervals by their `lo` fields (`a.lo <= b.lo`), the
comparison `a.lo.partial_cmp(&b.lo)` used to sort in `MultiInterval::intersect`. -/
def loSorted (a b : Interval) : Prop := EF.lt b.lo a.lo = false

instance : DecidableRel loSorted :=
  fun a b => inferInstanceAs (Decidable (EF.lt b.lo a.lo = false))

/-- The list built by
`self.intervals.iter().flat_map(|x| other.intervals.iter().map(|y| x.intersect(y)))`
in `MultiInterval::intersect`, before the `flatten` that drops `None`s. -/
def pairIntersections (s o : MultiInterval) : List (Option Interval) :=
  s.intervals.flatMap fun x => o.intervals.map fun y => x.intersect y

/-- Rust `MultiInterval::intersect` (impl Intersectable for MultiInterval):
pairwise intersections, drop the `None`s, sort ascending by `lo` (modelled by
the stable sort `insertionSort` on `loSorted`), and return `None` instead of
an empty result. -/
def MultiInterval.intersect (s o : MultiInterval) : Option MultiInterval :=
  let intersected := (pairIntersections s o).filterMap id
  let sorted := List.insertionSort loSorted intersected
  if sorted.isEmpty then none else some ⟨sorted⟩

/-- The `Range` data-model invariant `lo <= hi` of the specification. -/
def Interval.wf (i : Interval) : Prop := EF.lt i.hi i.lo = false

instance (i : Interval) : Decidable i.wf :=
  inferInstanceAs (Decidable (EF.lt i.hi i.lo = false))

/-- The RangeSet invariant of the specification: every member is a valid range,
members are sorted ascending by `lo`, and no two members intersect. -/
def MultiInterval.sortedDisjoint (m : MultiInterval) : Prop :=
  (∀ i ∈ m.intervals, i.wf) ∧
  m.intervals.Pairwise loSorted ∧
  m.intervals.Pairwise (fun a b => a.intersectsWith b = false)

instance (m : MultiInterval) : Decidable m.sortedDisjoint :=
  inferInstanceAs (Decidable (_ ∧ _ ∧ _))

/-- The convention that infinite endpoints carry Open boundaries. -/
def MultiInterval.infOpen (m : MultiInterval) : Prop :=
  ∀ i ∈ m.intervals,
    (i.lo = EF.negInf → i.lo_boundary = .Open) ∧ (i.hi = EF.posInf → i.hi_boundary = .Open)

instance (m : MultiInterval) : Decidable m.infOpen :=
  inferInstanceAs (Decidable (∀ i ∈ m.intervals, _ ∧ _))

/-- An interval that denotes a non-empty set of values: either `lo < hi`, or a
single point `lo = hi` with both boundaries Closed. -/
def Interval.nonemptySet (i : Interval) : Prop :=
  EF.lt i.lo i.hi = true ∨ (i.lo = i.hi ∧ i.lo_boundary = .Closed ∧ i.hi_boundary = .Closed)

instance (i : Interval) : Decidable i.nonemptySet :=
  inferInstanceAs (Decidable (_ ∨ _))

/-- Interval `a` lies entirely before interval `b`: it ends strictly below
`b.lo`, or touches `b.lo` with at least one Open boundary at the shared value. -/
def before (a b : Interval) : Prop :=
  EF.lt a.hi b.lo = true ∨ (a.hi = b.lo ∧ (a.hi_boundary = .Open ∨ b.lo_boundary = .Open))

instance : DecidableRel before :=
  fun _ _ => inferInstanceAs (Decidable (_ ∨ _))

/-- Strengthened RangeSet invariant: members are individually non-empty and
pairwise ordered-disjoint (each earlier member lies entirely before each later
one in the sense of `before`). -/
def MultiInterval.separated (m : MultiInterval) : Prop :=
  (∀ i ∈ m.intervals, i.nonemptySet) ∧ m.intervals.Pairwise before

instance (m : MultiInterval) : Decidable m.separated :=
  inferInstanceAs (Decidable (_ ∧ _))

/-- Gap list of claim C2, written as the spec phrases it: one gap range per
adjacent pair `(a, b)` of the sequence. -/
def gapsSpec (l : List Interval) : List Interval :=
  (l.zip l.tail).map fun p => ⟨p.1.hi_boundary.inverse, p.1.hi, p.2.lo, p.2.lo_boundary.inverse⟩

/-- The complement as described by claim C2 (and section 4.2 of the spec):
empty set goes to `(-Inf, Inf)`; otherwise a left tail emitted iff the lowest
`lo` is not `-Inf`, then the gap of every adjacent pair, then a right tail
emitted iff the highest `hi` is not `+Inf`. -/
def inverseSpec (m : MultiInterval) : MultiInterval :=
  match m.intervals with
  | [] => ⟨[fullInterval]⟩
  | first :: rest =>
    let lastI := rest.getLastD first
    ⟨(if first.lo = EF.negInf then []
        else [⟨.Open, .negInf, first.lo, first.lo_boundary.inverse⟩])
      ++ gapsSpec (first :: rest)
      ++ (if lastI.hi = EF.posInf then []
        else [⟨lastI.hi_boundary.inverse, lastI.hi, EF.posInf, .Open⟩])⟩

instance : IsTotal Interval loSorted where
  total a b := by
    unfold loSorted
    rcases a.lo with _ | p | _ <;> rcases b.lo with _ | q | _ <;>
      simp [EF.lt, decide_eq_false_iff_not, not_lt] <;> exact le_total p q

instance : IsTrans Interval loSorted where
  trans a b c h1 h2 := by
    unfold loSorted at h1 h2 ⊢
    revert h1 h2
    generalize a.lo = x
    generalize b.lo = y
    generalize c.lo = z
    cases x <;> cases y <;> cases z <;> simp [EF.lt, not_lt] <;>
      exact fun h1 h2 => h1.trans h2

theorem EF.lt_irrefl (a : EF) : EF.lt a a = false := by
  cases a <;> simp [EF.lt]

theorem EF.posInf_not_lt (a : EF) : EF.lt .posInf a = false := by
  cases a <;> rfl

theorem EF.not_lt_negInf (a : EF) : EF.lt a .negInf = false := by
  cases a <;> rfl

theorem EF.negInf_lt_of_ne {a : EF} (h : a ≠ .negInf) : EF.lt .negInf a = true := by
  cases a with
  | negInf => exact absurd rfl h
  | fin q => rfl
  | posInf => rfl

theorem EF.lt_posInf_of_ne {a : EF} (h : a ≠ .posInf) : EF.lt a .posInf = true := by
  cases a with
  | negInf => rfl
  | fin q => rfl
  | posInf => exact absurd rfl h

theorem EF.not_lt_of_lt {a b : EF} (h : EF.lt a b = true) : EF.lt b a = false := by
  cases a <;> cases b <;> simp_all [EF.lt] <;> exact le_of_lt h

theorem EF.not_lt_trans {a b c : EF} (h1 : EF.lt b a = false) (h2 : EF.lt c b = false) :
    EF.lt c a = false := by
  cases a <;> cases b <;> cases c <;> simp_all [EF.lt, not_lt] <;> exact h1.trans h2

theorem EF.lt_trans {a b c : EF} (h1 : EF.lt a b = true) (h2 : EF.lt b c = true) :
    EF.lt a c = true := by
  cases a <;> cases b <;> cases c <;> simp_all [EF.lt] <;> exact h1.trans h2

theorem EF.lt_of_lt_of_not_lt {a b c : EF} (h1 : EF.lt a b = true) (h2 : EF.lt c b = false) :
    EF.lt a c = true := by
  cases a <;> cases b <;> cases c <;> simp_all [EF.lt, not_lt] <;> exact h1.trans_le h2

theorem EF.lt_of_not_lt_of_lt {a b c : EF} (h1 : EF.lt b a = false) (h2 : EF.lt b c = true) :
    EF.lt a c = true := by
  cases a <;> cases b <;> cases c <;> simp_all [EF.lt, not_lt] <;> exact h1.trans_lt h2

theorem EF.eq_of_not_lt_of_not_lt {a b : EF} (h1 : EF.lt a b = false) (h2 : EF.lt b a = false) :
    a = b := by
  cases a <;> cases b <;> simp_all [EF.lt, not_lt] <;> exact le_antisymm h2 h1

theorem EF.lt_or_not_lt (a b : EF) : EF.lt a b = true ∨ EF.lt a b = false := by
  cases EF.lt a b <;> simp

theorem Boundary.inverse_inverse (b : Boundary) : b.inverse.inverse = b := by
  cases b <;> rfl

theorem Boundary.open_or_inverse_open (b : Boundary) :
    b = .Open ∨ b.inverse = .Open := by
  cases b <;> simp [Boundary.inverse]

theorem intersectsWith_eq_false_iff (a b : Interval) :
    a.intersectsWith b = false ↔
      (EF.gt a.lo b.hi = true ∨ EF.gt b.lo a.hi = true
        ∨ (a.lo = b.hi ∧ (a.lo_boundary = .Open ∨ b.hi_boundary = .Open))
        ∨ (b.lo = a.hi ∧ (b.lo_boundary = .Open ∨ a.hi_boundary = .Open))) := by
  simp only [Interval.intersectsWith, Bool.not_eq_false', Bool.or_eq_true, Bool.and_eq_true,
    decide_eq_true_eq, or_assoc]

/-- Claim C10: `intersects_with` is symmetric: `a.intersects_with(b)` equals
`b.intersects_with(a)` for all ranges. -/
theorem C10_intersects_with_symm (a b : Interval) : a.intersectsWith b = b.intersectsWith a := by
  have h1 := intersectsWith_eq_false_iff a b
  have h2 := intersectsWith_eq_false_iff b a
  cases hab : a.intersectsWith b <;> cases hba : b.intersectsWith a <;> simp_all <;> tauto

/-- Claim C7: `Interval.new` fails with the invalid-range error
(`LoIsGreaterThanHi`) iff `lo > hi`; in particular it succeeds when `lo = hi`, and on
success returns the interval with exactly the four given fields unchanged. -/
theorem C7_new_validation (lb : Boundary) (lo hi : EF) (hb : Boundary) :
    (Interval.new lb lo hi hb = .error .LoIsGreaterThanHi ↔ EF.gt lo hi = true)
    ∧ (EF.gt lo hi = false → Interval.new lb lo hi hb = .ok ⟨lb, lo, hi, hb⟩)
    ∧ (lo = hi → Interval.new lb lo hi hb = .ok ⟨lb, lo, hi, hb⟩) := by
  refine ⟨?_, ?_, ?_⟩
  · by_cases h : EF.gt lo hi = true <;> simp [Interval.new, h]
  · intro h; simp [Interval.new, h]
  · intro h; subst h
    have hx : EF.gt lo lo = false := EF.lt_irrefl lo
    simp [Interval.new, hx]

theorem windowsGaps_eq_gapsSpec : ∀ l : List Interval, windowsGaps l = gapsSpec l
  | [] => rfl
  | [_] => rfl
  | a :: b :: t => by
    have ih := windowsGaps_eq_gapsSpec (b :: t)
    simp only [windowsGaps, gapsSpec, List.tail_cons, List.zip_cons_cons, List.map_cons] at ih ⊢
    rw [ih]
    rfl

/-- Claim C2: `MultiInterval.inverse` emits, in ascending order, a left tail
`(-Inf, lowest_lo)` iff the lowest `lo` is not `-Inf` (high boundary the inverse of the
first range's low boundary), then the gap of every adjacent pair with inverted
boundaries, then a right tail `(highest_hi, Inf)` iff the highest `hi` is not `+Inf`;
the empty set maps to `(-Inf, Inf)`.  In particular the inverse of `(-Inf, Inf)` is the
empty RangeSet.  `inverseSpec` transcribes the claim; the equality holds for every
RangeSet, hence in particular for those satisfying the sorted-disjoint invariant. -/
theorem C2_inverse_matches_spec :
    (∀ m : MultiInterval, m.inverse = inverseSpec m)
    ∧ MultiInterval.inverse ⟨[fullInterval]⟩ = ⟨[]⟩ := by
  constructor
  · intro m
    obtain ⟨l⟩ := m
    cases l with
    | nil => rfl
    | cons first rest =>
      by_cases h1 : first.lo = EF.negInf <;>
        by_cases h2 : (rest.getLastD first).hi = EF.posInf <;>
          simp [MultiInterval.inverse, inverseSpec, h1, h2, windowsGaps_eq_gapsSpec]
  · decide

/-- Claim C6: `MultiInterval.intersect` returns (up to the arbitrary order of equal-`lo`
ties, i.e. as a permutation) the list of all non-`None` pairwise Range intersections,
sorted ascending by `lo`, and it returns `None` exactly when that list is empty — never a
present RangeSet with an empty sequence. -/
theorem C6_intersect_pairwise_sorted (A B : MultiInterval) :
    (∀ C, A.intersect B = some C →
        C.intervals.Perm ((pairIntersections A B).filterMap id)
        ∧ C.intervals.Pairwise loSorted
        ∧ C.intervals ≠ [])
    ∧ (A.intersect B = none ↔ (pairIntersections A B).filterMap id = []) := by
  have hperm := List.perm_insertionSort loSorted ((pairIntersections A B).filterMap id)
  have hsorted := List.sorted_insertionSort loSorted ((pairIntersections A B).filterMap id)
  constructor
  · intro C hC
    simp only [MultiInterval.intersect] at hC
    by_cases h :
        (List.insertionSort loSorted ((pairIntersections A B).filterMap id)).isEmpty = true
    · rw [if_pos h] at hC
      exact absurd hC (by simp)
    · rw [if_neg h] at hC
      obtain rfl : C = ⟨List.insertionSort loSorted ((pairIntersections A B).filterMap id)⟩ :=
        (Option.some_injective _ hC).symm
      refine ⟨hperm, hsorted, ?_⟩
      simpa [List.isEmpty_iff] using h
  · simp only [MultiInterval.intersect]
    by_cases h :
        (List.insertionSort loSorted ((pairIntersections A B).filterMap id)).isEmpty = true
    · rw [if_pos h]
      rw [List.isEmpty_iff] at h
      have hL : (pairIntersections A B).filterMap id = [] := (h ▸ hperm).symm.eq_nil
      simp [hL]
    · rw [if_neg h]
      constructor
      · intro habs; exact absurd habs (by simp)
      · intro hL
        rw [List.isEmpty_iff] at h
        exact absurd (by rw [hL]; rfl) h

theorem getLastD_mem : ∀ (t : List Interval) (a : Interval), t.getLastD a ∈ a :: t
  | [], a => by simp
  | b :: t, a => by
    rw [List.getLastD_cons]
    have := getLastD_mem t b
    simp only [List.mem_cons] at this ⊢
    tauto

theorem dropLast_append_getLastD :
    ∀ (t : List Interval) (a : Interval), (a :: t).dropLast ++ [t.getLastD a] = a :: t
  | [], a => by simp
  | b :: t, a => by
    rw [List.getLastD_cons, List.dropLast_cons₂, List.cons_append,
      dropLast_append_getLastD t b]

theorem gapOf_reconstruct {c d : Interval} (a : Interval)
    (h1 : c.hi = a.lo) (h2 : c.hi_boundary = a.lo_boundary.inverse)
    (h3 : d.lo = a.hi) (h4 : d.lo_boundary = a.hi_boundary.inverse) :
    gapOf c d = a := by
  simp [gapOf, h1, h2, h3, h4, Boundary.inverse_inverse]

theorem wg_snoc_reconstruct :
    ∀ (t : List Interval) (a c d : Interval),
      c.hi = a.lo → c.hi_boundary = a.lo_boundary.inverse →
      d.lo = (t.getLastD a).hi → d.lo_boundary = (t.getLastD a).hi_boundary.inverse →
      windowsGaps (c :: (windowsGaps (a :: t) ++ [d])) = a :: t
  | [], a, c, d, h1, h2, h3, h4 => by
    simp only [List.getLastD_nil] at h3 h4
    show gapOf c d :: ([] : List Interval) = [a]
    exact congrArg (· :: ([] : List Interval)) (gapOf_reconstruct a h1 h2 h3 h4)
  | b :: t, a, c, d, h1, h2, h3, h4 => by
    rw [List.getLastD_cons] at h3 h4
    show gapOf c (gapOf a b) :: windowsGaps (gapOf a b :: (windowsGaps (b :: t) ++ [d]))
        = a :: b :: t
    rw [wg_snoc_reconstruct t b (gapOf a b) d rfl rfl h3 h4]
    exact congrArg (· :: b :: t) (gapOf_reconstruct a h1 h2 rfl rfl)

theorem wg_left_reconstruct :
    ∀ (t : List Interval) (a c : Interval),
      c.hi = a.lo → c.hi_boundary = a.lo_boundary.inverse →
      windowsGaps (c :: windowsGaps (a :: t)) = (a :: t).dropLast
  | [], a, c, h1, h2 => by
    show ([] : List Interval) = [a].dropLast
    rfl
  | b :: t, a, c, h1, h2 => by
    show gapOf c (gapOf a b) :: windowsGaps (gapOf a b :: windowsGaps (b :: t))
        = (a :: b :: t).dropLast
    rw [wg_left_reconstruct t b (gapOf a b) rfl rfl, List.dropLast_cons₂]
    exact congrArg (· :: (b :: t).dropLast) (gapOf_reconstruct a h1 h2 rfl rfl)

theorem wg_getLastD :
    ∀ (t : List Interval) (a b x : Interval),
      ((windowsGaps (a :: b :: t)).getLastD x).hi = ((b :: t).getLastD a).lo
      ∧ ((windowsGaps (a :: b :: t)).getLastD x).hi_boundary
          = ((b :: t).getLastD a).lo_boundary.inverse
  | [], a, b, x => by
    have e : windowsGaps [a, b] = [gapOf a b] := rfl
    rw [e, List.getLastD_cons, List.getLastD_nil, List.getLastD_cons, List.getLastD_nil]
    exact ⟨rfl, rfl⟩
  | c :: t, a, b, x => by
    have e : windowsGaps (a :: b :: c :: t) = gapOf a b :: windowsGaps (b :: c :: t) := rfl
    rw [e, List.getLastD_cons, List.getLastD_cons]
    exact wg_getLastD t b c (gapOf a b)

theorem inverse_cons (first : Interval) (rest : List Interval) :
    MultiInterval.inverse ⟨first :: rest⟩ =
      ⟨(if first.lo ≠ EF.negInf
          then [⟨.Open, .negInf, first.lo, first.lo_boundary.inverse⟩] else [])
        ++ windowsGaps (first :: rest)
        ++ (if (rest.getLastD first).hi ≠ EF.posInf
          then [⟨(rest.getLastD first).hi_boundary.inverse, (rest.getLastD first).hi,
                EF.posInf, .Open⟩] else [])⟩ := rfl

theorem inverse_inverse_eq (m : MultiInterval) (hio : m.infOpen)
    (hdeg : ∀ i ∈ m.intervals, i.lo ≠ EF.posInf ∧ i.hi ≠ EF.negInf) :
    m.inverse.inverse = m := by
  obtain ⟨l⟩ := m
  cases l with
  | nil => decide
  | cons first rest =>
    have hfio := hio first (List.mem_cons_self first rest)
    have hlio := hio (rest.getLastD first) (getLastD_mem rest first)
    have hfdeg := hdeg first (List.mem_cons_self first rest)
    have hldeg := hdeg (rest.getLastD first) (getLastD_mem rest first)
    by_cases h1 : first.lo = EF.negInf
    · by_cases h2 : (rest.getLastD first).hi = EF.posInf
      · -- case D: no left tail, no right tail
        cases rest with
        | nil =>
          rw [List.getLastD_nil] at h2
          rw [inverse_cons first [], if_neg (not_not_intro h1), List.getLastD_nil,
            if_neg (not_not_intro h2)]
          show MultiInterval.inverse ⟨[]⟩ = ⟨[first]⟩
          show (⟨[fullInterval]⟩ : MultiInterval) = ⟨[first]⟩
          have : fullInterval = first := by
            apply Interval.ext
            · exact (hfio.1 h1).symm
            · exact h1.symm
            · exact h2.symm
            · exact (hfio.2 h2).symm
          rw [this]
        | cons b t =>
          rw [inverse_cons first (b :: t), if_neg (not_not_intro h1), if_neg (not_not_intro h2)]
          rw [List.nil_append, List.append_nil]
          rw [show windowsGaps (first :: b :: t) = gapOf first b :: windowsGaps (b :: t) from rfl]
          rw [inverse_cons (gapOf first b) (windowsGaps (b :: t))]
          have hlast := wg_getLastD t first b (gapOf first b)
          rw [show windowsGaps (first :: b :: t) = gapOf first b :: windowsGaps (b :: t) from rfl,
            List.getLastD_cons] at hlast
          rw [if_pos (show (gapOf first b).lo ≠ EF.negInf from hfdeg.2)]
          rw [if_pos (show ((windowsGaps (b :: t)).getLastD (gapOf first b)).hi ≠ EF.posInf from by
            rw [hlast.1]; exact hldeg.1)]
          rw [hlast.1, hlast.2, Boundary.inverse_inverse]
          rw [wg_left_reconstruct t b (gapOf first b) rfl rfl]
          have e4 : (⟨.Open, .negInf, (gapOf first b).lo, (gapOf first b).lo_boundary.inverse⟩
              : Interval) = first := by
            apply Interval.ext
            · exact (hfio.1 h1).symm
            · exact h1.symm
            · rfl
            · exact Boundary.inverse_inverse first.hi_boundary
          have e5 : (⟨((b :: t).getLastD first).lo_boundary, ((b :: t).getLastD first).lo,
              EF.posInf, .Open⟩ : Interval) = (b :: t).getLastD first := by
            apply Interval.ext
            · rfl
            · rfl
            · exact h2.symm
            · exact (hlio.2 h2).symm
          rw [e4, e5]
          rw [List.singleton_append, List.getLastD_cons first b t, List.cons_append,
            dropLast_append_getLastD t b]
      · -- case B: no left tail, right tail present
        cases rest with
        | nil =>
          rw [List.getLastD_nil] at h2
          rw [inverse_cons first [], if_neg (not_not_intro h1), List.getLastD_nil, if_pos h2]
          rw [List.nil_append, show windowsGaps [first] = ([] : List Interval) from rfl,
            List.nil_append]
          rw [inverse_cons ⟨first.hi_boundary.inverse, first.hi, EF.posInf, .Open⟩ []]
          rw [if_pos (show (⟨first.hi_boundary.inverse, first.hi, EF.posInf, .Open⟩
            : Interval).lo ≠ EF.negInf from hfdeg.2)]
          rw [List.getLastD_nil]
          rw [if_neg (not_not_intro (rfl : (⟨first.hi_boundary.inverse, first.hi, EF.posInf,
            .Open⟩ : Interval).hi = EF.posInf))]
          rw [show windowsGaps [(⟨first.hi_boundary.inverse, first.hi, EF.posInf, .Open⟩
            : Interval)] = ([] : List Interval) from rfl]
          rw [List.append_nil, List.append_nil]
          have e4 : (⟨.Open, .negInf, (⟨first.hi_boundary.inverse, first.hi, EF.posInf,
              .Open⟩ : Interval).lo, (⟨first.hi_boundary.inverse, first.hi, EF.posInf,
              .Open⟩ : Interval).lo_boundary.inverse⟩ : Interval) = first := by
            apply Interval.ext
            · exact (hfio.1 h1).symm
            · exact h1.symm
            · rfl
            · exact Boundary.inverse_inverse first.hi_boundary
          rw [e4]
        | cons b t =>
          rw [inverse_cons, if_neg (not_not_intro h1), if_pos h2]
          rw [List.nil_append]
          rw [show windowsGaps (first :: b :: t) = gapOf first b :: windowsGaps (b :: t) from rfl]
          rw [List.cons_append]
          rw [inverse_cons]
          rw [if_pos (show (gapOf first b).lo ≠ EF.negInf from hfdeg.2)]
          rw [List.getLastD_concat]
          rw [if_neg (not_not_intro (rfl :
            (⟨((b :: t).getLastD first).hi_boundary.inverse, ((b :: t).getLastD first).hi,
              EF.posInf, .Open⟩ : Interval).hi = EF.posInf))]
          rw [wg_snoc_reconstruct t b (gapOf first b)
            ⟨((b :: t).getLastD first).hi_boundary.inverse, ((b :: t).getLastD first).hi,
              EF.posInf, .Open⟩ rfl rfl
            (by rw [← List.getLastD_cons first b t])
            (by rw [← List.getLastD_cons first b t])]
          have e4 : (⟨.Open, .negInf, (gapOf first b).lo, (gapOf first b).lo_boundary.inverse⟩
              : Interval) = first := by
            apply Interval.ext
            · exact (hfio.1 h1).symm
            · exact h1.symm
            · rfl
            · exact Boundary.inverse_inverse first.hi_boundary
          rw [e4, List.append_nil, List.singleton_append]
    · by_cases h2 : (rest.getLastD first).hi = EF.posInf
      · -- case C: left tail present, no right tail
        cases rest with
        | nil =>
          rw [List.getLastD_nil] at h2
          rw [inverse_cons first [], if_pos h1, List.getLastD_nil, if_neg (not_not_intro h2)]
          rw [show windowsGaps [first] = ([] : List Interval) from rfl]
          rw [List.append_nil, List.append_nil]
          rw [inverse_cons ⟨.Open, .negInf, first.lo, first.lo_boundary.inverse⟩ []]
          rw [if_neg (not_not_intro (rfl : (⟨.Open, .negInf, first.lo,
            first.lo_boundary.inverse⟩ : Interval).lo = EF.negInf))]
          rw [List.getLastD_nil]
          rw [if_pos (show (⟨.Open, .negInf, first.lo, first.lo_boundary.inverse⟩
            : Interval).hi ≠ EF.posInf from hfdeg.1)]
          rw [show windowsGaps [(⟨.Open, .negInf, first.lo, first.lo_boundary.inverse⟩
            : Interval)] = ([] : List Interval) from rfl]
          rw [List.nil_append, List.nil_append]
          have e4 : (⟨(⟨.Open, .negInf, first.lo, first.lo_boundary.inverse⟩
              : Interval).hi_boundary.inverse, (⟨.Open, .negInf, first.lo,
              first.lo_boundary.inverse⟩ : Interval).hi, EF.posInf, .Open⟩ : Interval)
              = first := by
            apply Interval.ext
            · exact Boundary.inverse_inverse first.lo_boundary
            · rfl
            · exact h2.symm
            · exact (hfio.2 h2).symm
          rw [e4]
        | cons b t =>
          rw [inverse_cons, if_pos h1, if_neg (not_not_intro h2)]
          rw [List.append_nil, List.singleton_append]
          rw [inverse_cons]
          rw [if_neg (not_not_intro (rfl : (⟨.Open, .negInf, first.lo,
            first.lo_boundary.inverse⟩ : Interval).lo = EF.negInf))]
          have hlast := wg_getLastD t first b
            ⟨.Open, .negInf, first.lo, first.lo_boundary.inverse⟩
          rw [if_pos (show ((windowsGaps (first :: b :: t)).getLastD
              ⟨.Open, .negInf, first.lo, first.lo_boundary.inverse⟩).hi ≠ EF.posInf from by
            rw [hlast.1]; exact hldeg.1)]
          rw [hlast.1, hlast.2, Boundary.inverse_inverse]
          rw [wg_left_reconstruct (b :: t) first
            ⟨.Open, .negInf, first.lo, first.lo_boundary.inverse⟩ rfl rfl]
          have e5 : (⟨((b :: t).getLastD first).lo_boundary, ((b :: t).getLastD first).lo,
              EF.posInf, .Open⟩ : Interval) = (b :: t).getLastD first := by
            apply Interval.ext
            · rfl
            · rfl
            · exact h2.symm
            · exact (hlio.2 h2).symm
          rw [e5, List.nil_append, dropLast_append_getLastD (b :: t) first]
      · -- case A: both tails present
        rw [inverse_cons first rest, if_pos h1, if_pos h2]
        rw [List.singleton_append, List.cons_append]
        rw [inverse_cons]
        rw [if_neg (not_not_intro (rfl : (⟨.Open, .negInf, first.lo,
          first.lo_boundary.inverse⟩ : Interval).lo = EF.negInf))]
        rw [List.getLastD_concat]
        rw [if_neg (not_not_intro (rfl : (⟨(rest.getLastD first).hi_boundary.inverse,
          (rest.getLastD first).hi, EF.posInf, .Open⟩ : Interval).hi = EF.posInf))]
        rw [wg_snoc_reconstruct rest first
          ⟨.Open, .negInf, first.lo, first.lo_boundary.inverse⟩
          ⟨(rest.getLastD first).hi_boundary.inverse, (rest.getLastD first).hi,
            EF.posInf, .Open⟩ rfl rfl rfl rfl]
        rw [List.nil_append, List.append_nil]

theorem flatMap_singleton_map :
    ∀ (l : List Interval) (f : Interval → Option Interval),
      (l.flatMap fun x => [f x]) = l.map f
  | [], _ => rfl
  | a :: t, f => by
    rw [List.flatMap_cons, List.map_cons, List.singleton_append,
      flatMap_singleton_map t f]

theorem filterMap_id_map_some :
    ∀ l : List Interval, (l.map some).filterMap id = l
  | [] => rfl
  | a :: t => by
    simp [filterMap_id_map_some t]

theorem intersect_fullInterval {x : Interval}
    (hdeg : x.lo ≠ EF.posInf ∧ x.hi ≠ EF.negInf)
    (hio : (x.lo = EF.negInf → x.lo_boundary = .Open)
      ∧ (x.hi = EF.posInf → x.hi_boundary = .Open)) :
    x.intersect fullInterval = some x := by
  have hiw : x.intersectsWith fullInterval = true := by
    have h3 : decide (x.lo = EF.posInf) = false := decide_eq_false hdeg.1
    have h4 : decide (EF.negInf = x.hi) = false :=
      decide_eq_false (fun h => hdeg.2 h.symm)
    simp only [Interval.intersectsWith, EF.gt, fullInterval, EF.posInf_not_lt,
      EF.not_lt_negInf, h3, h4, Bool.false_and, Bool.or_false, Bool.false_or,
      Bool.or_self, Bool.not_false]
  unfold Interval.intersect
  rw [hiw]
  simp only [Bool.not_true, Bool.false_eq_true, if_false]
  by_cases hlo : x.lo = EF.negInf
  · by_cases hhi : x.hi = EF.posInf
    · rw [if_neg (by rw [EF.gt, hlo, fullInterval]; simp [EF.lt])]
      rw [if_neg (by rw [hhi, fullInterval]; simp [EF.lt_irrefl])]
      refine congrArg some ?_
      apply Interval.ext
      · exact (hio.1 hlo).symm
      · exact hlo.symm
      · exact hhi.symm
      · exact (hio.2 hhi).symm
    · rw [if_neg (by rw [EF.gt, hlo, fullInterval]; simp [EF.lt])]
      rw [if_pos (show EF.lt x.hi fullInterval.hi = true from EF.lt_posInf_of_ne hhi)]
      refine congrArg some ?_
      apply Interval.ext
      · exact (hio.1 hlo).symm
      · exact hlo.symm
      · rfl
      · rfl
  · by_cases hhi : x.hi = EF.posInf
    · rw [if_pos (show EF.gt x.lo fullInterval.lo = true from EF.negInf_lt_of_ne hlo)]
      rw [if_neg (by rw [hhi, fullInterval]; simp [EF.lt_irrefl])]
      refine congrArg some ?_
      apply Interval.ext
      · rfl
      · rfl
      · exact hhi.symm
      · exact (hio.2 hhi).symm
    · rw [if_pos (show EF.gt x.lo fullInterval.lo = true from EF.negInf_lt_of_ne hlo)]
      rw [if_pos (show EF.lt x.hi fullInterval.hi = true from EF.lt_posInf_of_ne hhi)]

theorem intersect_full_eq_self (m : MultiInterval) (hne : m.intervals ≠ [])
    (hsd : m.sortedDisjoint) (hio : m.infOpen)
    (hdeg : ∀ i ∈ m.intervals, i.lo ≠ EF.posInf ∧ i.hi ≠ EF.negInf) :
    m.intersect ⟨[fullInterval]⟩ = some m := by
  obtain ⟨l⟩ := m
  have hpairs : pairIntersections ⟨l⟩ ⟨[fullInterval]⟩ = l.map some := by
    unfold pairIntersections
    rw [show (⟨[fullInterval]⟩ : MultiInterval).intervals = [fullInterval] from rfl]
    rw [show (⟨l⟩ : MultiInterval).intervals = l from rfl]
    have : ∀ x : Interval, [fullInterval].map (fun y => x.intersect y)
        = [x.intersect fullInterval] := fun _ => rfl
    calc l.flatMap (fun x => [fullInterval].map fun y => x.intersect y)
        = l.flatMap (fun x => [x.intersect fullInterval]) := by
          exact congrArg _ (funext this)
      _ = l.map (fun x => x.intersect fullInterval) := flatMap_singleton_map l _
      _ = l.map some := List.map_congr_left
          (fun x hx => intersect_fullInterval (hdeg x hx) (hio x hx))
  unfold MultiInterval.intersect
  rw [hpairs, filterMap_id_map_some]
  show (if (List.insertionSort loSorted l).isEmpty = true then none
    else some (⟨List.insertionSort loSorted l⟩ : MultiInterval)) = some (⟨l⟩ : MultiInterval)
  rw [List.Sorted.insertionSort_eq (show List.Sorted loSorted l from hsd.2.1)]
  rw [if_neg (by simp only [List.isEmpty_iff]; exact hne)]

theorem before_of_inverse_hi {c a : Interval} (h1 : c.hi = a.lo)
    (h2 : c.hi_boundary = a.lo_boundary.inverse) : before c a := by
  refine Or.inr ⟨h1, ?_⟩
  rcases Boundary.open_or_inverse_open a.lo_boundary with h | h
  · exact Or.inr h
  · exact Or.inl (by rw [h2]; exact h)

theorem before_of_inverse_lo {a c : Interval} (h1 : c.lo = a.hi)
    (h2 : c.lo_boundary = a.hi_boundary.inverse) : before a c := by
  refine Or.inr ⟨h1.symm, ?_⟩
  rcases Boundary.open_or_inverse_open a.hi_boundary with h | h
  · exact Or.inl h
  · exact Or.inr (by rw [h2]; exact h)

theorem before_trans_nonempty {c a x : Interval} (hca : before c a) (hne : a.nonemptySet)
    (hax : before a x) : before c x := by
  rcases hca with hs | ⟨heq, hb⟩ <;> rcases hax with hs2 | ⟨heq2, hb2⟩
  · rcases hne with hn | ⟨hne_eq, _, _⟩
    · exact Or.inl (EF.lt_trans (EF.lt_trans hs hn) hs2)
    · rw [hne_eq] at hs
      exact Or.inl (EF.lt_trans hs hs2)
  · rcases hne with hn | ⟨hne_eq, _, _⟩
    · have h3 := EF.lt_trans hs hn
      rw [heq2] at h3
      exact Or.inl h3
    · rw [hne_eq, heq2] at hs
      exact Or.inl hs
  · rcases hne with hn | ⟨hne_eq, _, _⟩
    · have h3 := EF.lt_trans hn hs2
      rw [← heq] at h3
      exact Or.inl h3
    · rw [← hne_eq, ← heq] at hs2
      exact Or.inl hs2
  · rcases hne with hn | ⟨hne_eq, hc1, hc2⟩
    · rw [← heq, heq2] at hn
      exact Or.inl hn
    · refine Or.inr ⟨by rw [heq, hne_eq, heq2], ?_⟩
      rcases hb with hO | hO
      · exact Or.inl hO
      · rw [hc1] at hO
        exact Boundary.noConfusion hO

theorem not_intersectsWith_of_before_lt {a b : Interval} (h : before a b) :
    a.intersectsWith b = false := by
  rw [intersectsWith_eq_false_iff]
  rcases h with hs | ⟨heq, hb⟩
  · exact Or.inr (Or.inl hs)
  · exact Or.inr (Or.inr (Or.inr ⟨heq.symm, hb.symm⟩))

theorem not_intersectsWith_of_before_gt {a b : Interval} (h : before a b) :
    b.intersectsWith a = false := by
  rw [intersectsWith_eq_false_iff]
  rcases h with hs | ⟨heq, hb⟩
  · exact Or.inl hs
  · exact Or.inr (Or.inr (Or.inl ⟨heq.symm, hb.symm⟩))

theorem windowsGaps_src :
    ∀ l : List Interval, ∀ g ∈ windowsGaps l,
      ∃ u ∈ l, g.lo = u.hi ∧ g.lo_boundary = u.hi_boundary.inverse
  | [] => fun g hg => absurd hg (List.not_mem_nil g)
  | [_] => fun g hg => absurd hg (List.not_mem_nil g)
  | a :: b :: t => by
    intro g hg
    rw [show windowsGaps (a :: b :: t) = gapOf a b :: windowsGaps (b :: t) from rfl] at hg
    rcases List.mem_cons.mp hg with rfl | hg2
    · exact ⟨a, List.mem_cons_self a (b :: t), rfl, rfl⟩
    · obtain ⟨u, hu, h1, h2⟩ := windowsGaps_src (b :: t) g hg2
      exact ⟨u, List.mem_cons_of_mem a hu, h1, h2⟩

theorem gaps_sep :
    ∀ l : List Interval, (∀ i ∈ l, i.nonemptySet) → l.Pairwise before →
      ∀ g ∈ windowsGaps l, ∀ x ∈ l, before x g ∨ before g x
  | [] => fun _ _ g hg => absurd hg (List.not_mem_nil g)
  | [_] => fun _ _ g hg => absurd hg (List.not_mem_nil g)
  | a :: b :: t => by
    intro hne hpw g hg x hx
    have hpw1 := (List.pairwise_cons.mp hpw).1
    have hpw2 := (List.pairwise_cons.mp hpw).2
    have hne2 : ∀ i ∈ b :: t, i.nonemptySet := fun i hi => hne i (List.mem_cons_of_mem a hi)
    rw [show windowsGaps (a :: b :: t) = gapOf a b :: windowsGaps (b :: t) from rfl] at hg
    rcases List.mem_cons.mp hg with rfl | hg2
    · have hgb : before (gapOf a b) b := before_of_inverse_hi rfl rfl
      rcases List.mem_cons.mp hx with rfl | hx2
      · exact Or.inl (before_of_inverse_lo rfl rfl)
      · rcases List.mem_cons.mp hx2 with rfl | hx3
        · exact Or.inr hgb
        · exact Or.inr (before_trans_nonempty hgb (hne2 b (List.mem_cons_self b t))
            ((List.pairwise_cons.mp hpw2).1 x hx3))
    · rcases List.mem_cons.mp hx with rfl | hx2
      · obtain ⟨u, hu, h1, h2⟩ := windowsGaps_src (b :: t) g hg2
        exact Or.inl (before_trans_nonempty (hpw1 u hu) (hne2 u hu)
          (before_of_inverse_lo h1 h2))
      · exact gaps_sep (b :: t) hne2 hpw2 g hg2 x hx2

theorem pairwise_last :
    ∀ (t : List Interval) (a : Interval), (a :: t).Pairwise before →
      ∀ x ∈ a :: t, x = t.getLastD a ∨ before x (t.getLastD a)
  | [], a => by
    intro _ x hx
    rcases List.mem_cons.mp hx with rfl | hx2
    · exact Or.inl (List.getLastD_nil _).symm
    · exact absurd hx2 (List.not_mem_nil x)
  | b :: t, a => by
    intro hpw x hx
    rw [List.getLastD_cons]
    rcases List.mem_cons.mp hx with rfl | hx2
    · exact Or.inr ((List.pairwise_cons.mp hpw).1 (t.getLastD b) (getLastD_mem t b))
    · exact pairwise_last t b (List.pairwise_cons.mp hpw).2 x hx2

theorem inverse_sep (m : MultiInterval) (hsep : m.separated) :
    ∀ x ∈ m.intervals, ∀ y ∈ m.inverse.intervals, x.intersectsWith y = false := by
  obtain ⟨l⟩ := m
  obtain ⟨hne, hpw⟩ := hsep
  intro x hx y hy
  cases l with
  | nil => exact absurd hx (List.not_mem_nil x)
  | cons first rest =>
    rw [inverse_cons] at hy
    rcases List.mem_append.mp hy with hy1 | hyR
    · rcases List.mem_append.mp hy1 with hyL | hyG
      · by_cases h1 : first.lo ≠ EF.negInf
        · rw [if_pos h1] at hyL
          rcases List.mem_cons.mp hyL with rfl | h
          · have hLfirst : before (⟨.Open, .negInf, first.lo, first.lo_boundary.inverse⟩
                : Interval) first := before_of_inverse_hi rfl rfl
            rcases List.mem_cons.mp hx with rfl | hx2
            · exact not_intersectsWith_of_before_gt hLfirst
            · exact not_intersectsWith_of_before_gt (before_trans_nonempty hLfirst
                (hne first (List.mem_cons_self first rest))
                ((List.pairwise_cons.mp hpw).1 x hx2))
          · exact absurd h (List.not_mem_nil y)
        · rw [if_neg h1] at hyL
          exact absurd hyL (List.not_mem_nil y)
      · rcases gaps_sep (first :: rest) hne hpw y hyG x hx with hxy | hyx
        · exact not_intersectsWith_of_before_lt hxy
        · exact not_intersectsWith_of_before_gt hyx
    · by_cases h2 : (rest.getLastD first).hi ≠ EF.posInf
      · rw [if_pos h2] at hyR
        rcases List.mem_cons.mp hyR with rfl | h
        · have hlastR : before (rest.getLastD first)
              (⟨(rest.getLastD first).hi_boundary.inverse, (rest.getLastD first).hi,
                EF.posInf, .Open⟩ : Interval) := before_of_inverse_lo rfl rfl
          rcases pairwise_last rest first hpw x hx with heq | hbx
          · rw [heq]
            exact not_intersectsWith_of_before_lt hlastR
          · exact not_intersectsWith_of_before_lt (before_trans_nonempty hbx
              (hne (rest.getLastD first) (getLastD_mem rest first)) hlastR)
        · exact absurd h (List.not_mem_nil y)
      · rw [if_neg h2] at hyR
        exact absurd hyR (List.not_mem_nil y)

theorem inverse_disjoint (m : MultiInterval) (hsep : m.separated) :
    m.intersectsWith m.inverse = false ∧ m.intersect m.inverse = none := by
  have key := inverse_sep m hsep
  constructor
  · unfold MultiInterval.intersectsWith
    rw [List.any_eq_false]
    intro x hx
    rw [Bool.not_eq_true, List.any_eq_false]
    intro y hy
    rw [Bool.not_eq_true]
    exact key x hx y hy
  · unfold MultiInterval.intersect
    have hL : (pairIntersections m m.inverse).filterMap id = [] := by
      rw [List.filterMap_eq_nil_iff]
      intro a ha
      unfold pairIntersections at ha
      rw [List.mem_flatMap] at ha
      obtain ⟨x, hx, ha2⟩ := ha
      rw [List.mem_map] at ha2
      obtain ⟨y, hy, rfl⟩ := ha2
      show Interval.intersect x y = none
      unfold Interval.intersect
      rw [key x hx y hy]
      rfl
    rw [hL]
    show (if (List.insertionSort loSorted ([] : List Interval)).isEmpty = true then none
      else some (⟨List.insertionSort loSorted []⟩ : MultiInterval)) = none
    rfl

theorem nonemptySet_wf {i : Interval} (h : i.nonemptySet) : i.wf := by
  rcases h with hs | ⟨heq, _, _⟩
  · exact EF.not_lt_of_lt hs
  · unfold Interval.wf
    rw [heq]
    exact EF.lt_irrefl i.hi

theorem before_loSorted {a b : Interval} (hw : a.wf) (h : before a b) : loSorted a b := by
  rcases h with hs | ⟨heq, _⟩
  · rcases EF.lt_or_not_lt b.lo a.lo with h2 | h2
    · have hcontra := EF.lt_trans hs h2
      unfold Interval.wf at hw
      rw [hcontra] at hw
      exact Bool.noConfusion hw
    · exact h2
  · unfold loSorted
    rw [← heq]
    exact hw

theorem separated_sortedDisjoint (m : MultiInterval) (hsep : m.separated) :
    m.sortedDisjoint := by
  obtain ⟨hne, hpw⟩ := hsep
  refine ⟨fun i hi => nonemptySet_wf (hne i hi), ?_, ?_⟩
  · exact hpw.imp_of_mem (fun {a b} ha hb h => before_loSorted (nonemptySet_wf (hne a ha)) h)
  · exact hpw.imp (fun h => not_intersectsWith_of_before_lt h)

/-- Claim C3: `intersects_with` returns false exactly when `a.lo > b.hi`, or
`b.lo > a.hi`, or the ranges touch at `a.lo = b.hi` with at least one of the two
boundaries at the shared point Open, or touch at `b.lo = a.hi` with at least one of the
two boundaries there Open; it returns true in every other case. -/
theorem C3_intersects_with_characterization (a b : Interval) :
    a.intersectsWith b = false ↔
      (EF.gt a.lo b.hi = true ∨ EF.gt b.lo a.hi = true
        ∨ (a.lo = b.hi ∧ (a.lo_boundary = .Open ∨ b.hi_boundary = .Open))
        ∨ (b.lo = a.hi ∧ (b.lo_boundary = .Open ∨ a.hi_boundary = .Open))) :=
  intersectsWith_eq_false_iff a b

/-- Claim C1 (code bug): the claim states that when two intersecting ranges share an
equal `lo` (resp. `hi`) value, the resulting boundary of `intersect` is Closed iff both
input boundaries are Closed.  The code instead copies the boundary of the operand picked
by the `bigger_lo`/`smaller_hi` selection, so at the tie `(0,10) ∩ [0,10]` it returns
`[0,10]` with a Closed low boundary although the left operand is Open there.  This
theorem evaluates the code at the failing input and refutes the claimed biconditional. -/
theorem C1_intersect_tie_boundary_code_bug :
    Interval.intersect ⟨.Open, .fin 0, .fin 10, .Open⟩ ⟨.Closed, .fin 0, .fin 10, .Closed⟩
      = some ⟨.Closed, .fin 0, .fin 10, .Closed⟩
    ∧ ¬(∀ a b c : Interval, a.intersect b = some c → a.lo = b.lo →
        (c.lo_boundary = .Closed ↔ (a.lo_boundary = .Closed ∧ b.lo_boundary = .Closed))) := by
  constructor
  · decide
  · intro hclaim
    have h := hclaim ⟨.Open, .fin 0, .fin 10, .Open⟩ ⟨.Closed, .fin 0, .fin 10, .Closed⟩
      ⟨.Closed, .fin 0, .fin 10, .Closed⟩ (by decide) rfl
    exact Boundary.noConfusion (h.mp rfl).1

/-- Claim C5 (code bug): the claim states that `inverse` and `intersect` preserve the
sorted-disjoint RangeSet invariant; the struct doc comment in the code likewise says the
list is always sorted with no overlapping intervals.  The code violates this:
`{[0,5], (5,10]} ∩ {[5,8]}` returns `{[5,5], [5,8]}` whose members intersect (both Closed
at the shared value 5), a consequence of the equal-`lo` boundary slip of C1; and
`inverse` of the valid one-element set `{(5,5)}` returns `{(-Inf,5], [5,Inf)}` whose
members intersect at 5.  This theorem evaluates the code at both failing inputs. -/
theorem C5_invariant_preservation_code_bug :
    MultiInterval.sortedDisjoint
      ⟨[⟨.Closed, .fin 0, .fin 5, .Closed⟩, ⟨.Open, .fin 5, .fin 10, .Closed⟩]⟩
    ∧ MultiInterval.sortedDisjoint ⟨[⟨.Closed, .fin 5, .fin 8, .Closed⟩]⟩
    ∧ MultiInterval.intersect
        ⟨[⟨.Closed, .fin 0, .fin 5, .Closed⟩, ⟨.Open, .fin 5, .fin 10, .Closed⟩]⟩
        ⟨[⟨.Closed, .fin 5, .fin 8, .Closed⟩]⟩
      = some ⟨[⟨.Closed, .fin 5, .fin 5, .Closed⟩, ⟨.Closed, .fin 5, .fin 8, .Closed⟩]⟩
    ∧ Interval.intersectsWith ⟨.Closed, .fin 5, .fin 5, .Closed⟩
        ⟨.Closed, .fin 5, .fin 8, .Closed⟩ = true
    ∧ MultiInterval.sortedDisjoint ⟨[⟨.Open, .fin 5, .fin 5, .Open⟩]⟩
    ∧ MultiInterval.inverse ⟨[⟨.Open, .fin 5, .fin 5, .Open⟩]⟩
      = ⟨[⟨.Open, EF.negInf, .fin 5, .Closed⟩, ⟨.Closed, .fin 5, EF.posInf, .Open⟩]⟩
    ∧ Interval.intersectsWith ⟨.Open, EF.negInf, .fin 5, .Closed⟩
        ⟨.Closed, .fin 5, EF.posInf, .Open⟩ = true := by
  refine ⟨by decide, by decide, by decide, by decide, by decide, by decide, by decide⟩

/-- Claim C4 (amended): for every RangeSet satisfying the sorted-disjoint invariant and
the infinite-endpoints-are-Open convention, and in which additionally no range has
`lo = +Inf` or `hi = -Inf` (excluding the degenerate empty ranges `(+Inf, +Inf)` and
`(-Inf, -Inf)`), `inverse` is an involution: `S.inverse().inverse() == S`. -/
theorem C4_double_inverse_amended (m : MultiInterval) (hsd : m.sortedDisjoint)
    (hio : m.infOpen) (hdeg : ∀ i ∈ m.intervals, i.lo ≠ EF.posInf ∧ i.hi ≠ EF.negInf) :
    m.inverse.inverse = m :=
  inverse_inverse_eq m hio hdeg

/-- Claim C4 counterexample: the degenerate RangeSet `{(+Inf, +Inf)}` (both boundaries
Open) satisfies the sorted-disjoint invariant and the infinity convention, yet its double
inverse is the empty RangeSet, not the original, refuting the claim as stated. -/
theorem C4_counterexample :
    MultiInterval.sortedDisjoint ⟨[⟨.Open, EF.posInf, EF.posInf, .Open⟩]⟩
    ∧ MultiInterval.infOpen ⟨[⟨.Open, EF.posInf, EF.posInf, .Open⟩]⟩
    ∧ MultiInterval.inverse (MultiInterval.inverse ⟨[⟨.Open, EF.posInf, EF.posInf, .Open⟩]⟩)
        ≠ ⟨[⟨.Open, EF.posInf, EF.posInf, .Open⟩]⟩ := by
  refine ⟨by decide, by decide, by decide⟩

/-- Claim C4 witness: the amended theorem applied to the concrete RangeSet `{[0,10]}`. -/
theorem C4_witness :
    MultiInterval.sortedDisjoint ⟨[⟨.Closed, .fin 0, .fin 10, .Closed⟩]⟩
    ∧ MultiInterval.infOpen ⟨[⟨.Closed, .fin 0, .fin 10, .Closed⟩]⟩
    ∧ (∀ i ∈ (⟨[⟨.Closed, .fin 0, .fin 10, .Closed⟩]⟩ : MultiInterval).intervals,
        i.lo ≠ EF.posInf ∧ i.hi ≠ EF.negInf)
    ∧ MultiInterval.inverse (MultiInterval.inverse ⟨[⟨.Closed, .fin 0, .fin 10, .Closed⟩]⟩)
        = ⟨[⟨.Closed, .fin 0, .fin 10, .Closed⟩]⟩ :=
  ⟨by decide, by decide, by decide,
    C4_double_inverse_amended ⟨[⟨.Closed, .fin 0, .fin 10, .Closed⟩]⟩
      (by decide) (by decide) (by decide)⟩

/-- Claim C8 (amended): for every RangeSet whose ranges are individually non-empty and
pairwise ordered-disjoint (each earlier range ends strictly before a later one begins,
or touches it with at least one Open boundary at the shared value — `separated`, which
implies the sorted-disjoint invariant), the set never intersects its inverse and
`S.intersect(S.inverse())` is `None`, not a present-but-empty RangeSet. -/
theorem C8_complement_disjoint_amended (m : MultiInterval) (hsep : m.separated) :
    m.intersectsWith m.inverse = false ∧ m.intersect m.inverse = none :=
  inverse_disjoint m hsep

/-- Claim C8 counterexample: `{(5,10], [5,5]}` satisfies the sorted-disjoint invariant
as stated (sorted ascending by `lo`, pairwise non-intersecting), yet it intersects its
computed inverse and `intersect` with the inverse is present, refuting the claim as
stated. -/
theorem C8_counterexample :
    MultiInterval.sortedDisjoint
      ⟨[⟨.Open, .fin 5, .fin 10, .Closed⟩, ⟨.Closed, .fin 5, .fin 5, .Closed⟩]⟩
    ∧ MultiInterval.intersectsWith
        ⟨[⟨.Open, .fin 5, .fin 10, .Closed⟩, ⟨.Closed, .fin 5, .fin 5, .Closed⟩]⟩
        (MultiInterval.inverse
          ⟨[⟨.Open, .fin 5, .fin 10, .Closed⟩, ⟨.Closed, .fin 5, .fin 5, .Closed⟩]⟩) = true
    ∧ MultiInterval.intersect
        ⟨[⟨.Open, .fin 5, .fin 10, .Closed⟩, ⟨.Closed, .fin 5, .fin 5, .Closed⟩]⟩
        (MultiInterval.inverse
          ⟨[⟨.Open, .fin 5, .fin 10, .Closed⟩, ⟨.Closed, .fin 5, .fin 5, .Closed⟩]⟩)
      ≠ none := by
  refine ⟨by decide, by decide, by decide⟩

/-- Claim C8 witness: the amended theorem applied to the concrete RangeSet `{[0,10]}`. -/
theorem C8_witness :
    MultiInterval.separated ⟨[⟨.Closed, .fin 0, .fin 10, .Closed⟩]⟩
    ∧ (MultiInterval.intersectsWith ⟨[⟨.Closed, .fin 0, .fin 10, .Closed⟩]⟩
        (MultiInterval.inverse ⟨[⟨.Closed, .fin 0, .fin 10, .Closed⟩]⟩) = false
      ∧ MultiInterval.intersect ⟨[⟨.Closed, .fin 0, .fin 10, .Closed⟩]⟩
        (MultiInterval.inverse ⟨[⟨.Closed, .fin 0, .fin 10, .Closed⟩]⟩) = none) :=
  ⟨by decide, C8_complement_disjoint_amended ⟨[⟨.Closed, .fin 0, .fin 10, .Closed⟩]⟩ (by decide)⟩

/-- Claim C9 (amended): for every non-empty RangeSet satisfying the sorted-disjoint
invariant and the infinite-endpoints-are-Open convention, and in which additionally no
range has `lo = +Inf` or `hi = -Inf`, intersecting with the full domain `{(-Inf, Inf)}`
returns `some` of a RangeSet structurally equal to the original. -/
theorem C9_full_domain_identity_amended (m : MultiInterval) (hne : m.intervals ≠ [])
    (hsd : m.sortedDisjoint) (hio : m.infOpen)
    (hdeg : ∀ i ∈ m.intervals, i.lo ≠ EF.posInf ∧ i.hi ≠ EF.negInf) :
    m.intersect ⟨[fullInterval]⟩ = some m :=
  intersect_full_eq_self m hne hsd hio hdeg

/-- Claim C9 counterexample: the non-empty RangeSet `{(+Inf, +Inf)}` satisfies the
sorted-disjoint invariant and the infinity convention, yet intersecting it with
`{(-Inf, Inf)}` returns `None` rather than the original set, refuting the claim as
stated. -/
theorem C9_counterexample :
    (⟨[⟨.Open, EF.posInf, EF.posInf, .Open⟩]⟩ : MultiInterval).intervals ≠ []
    ∧ MultiInterval.sortedDisjoint ⟨[⟨.Open, EF.posInf, EF.posInf, .Open⟩]⟩
    ∧ MultiInterval.infOpen ⟨[⟨.Open, EF.posInf, EF.posInf, .Open⟩]⟩
    ∧ MultiInterval.intersect ⟨[⟨.Open, EF.posInf, EF.posInf, .Open⟩]⟩ ⟨[fullInterval]⟩
        = none := by
  refine ⟨by decide, by decide, by decide, by decide⟩

/-- Claim C9 witness: the amended theorem applied to the concrete RangeSet `{[0,10]}`. -/
theorem C9_witness :
    (⟨[⟨.Closed, .fin 0, .fin 10, .Closed⟩]⟩ : MultiInterval).intervals ≠ []
    ∧ MultiInterval.sortedDisjoint ⟨[⟨.Closed, .fin 0, .fin 10, .Closed⟩]⟩
    ∧ MultiInterval.infOpen ⟨[⟨.Closed, .fin 0, .fin 10, .Closed⟩]⟩
    ∧ (∀ i ∈ (⟨[⟨.Closed, .fin 0, .fin 10, .Closed⟩]⟩ : MultiInterval).intervals,
        i.lo ≠ EF.posInf ∧ i.hi ≠ EF.negInf)
    ∧ MultiInterval.intersect ⟨[⟨.Closed, .fin 0, .fin 10, .Closed⟩]⟩ ⟨[fullInterval]⟩
        = some ⟨[⟨.Closed, .fin 0, .fin 10, .Closed⟩]⟩ :=
  ⟨by decide, by decide, by decide, by decide,
    C9_full_domain_identity_amended ⟨[⟨.Closed, .fin 0, .fin 10, .Closed⟩]⟩
      (by decide) (by decide) (by decide) (by decide)⟩

/-- Claim C6 witness: the theorem applied to `{[0,10]} ∩ {[5,20]} = {[5,10]}`. -/
theorem C6_witness :
    MultiInterval.intersect ⟨[⟨.Closed, .fin 0, .fin 10, .Closed⟩]⟩
        ⟨[⟨.Closed, .fin 5, .fin 20, .Closed⟩]⟩
      = some ⟨[⟨.Closed, .fin 5, .fin 10, .Closed⟩]⟩
    ∧ (([⟨.Closed, .fin 5, .fin 10, .Closed⟩] : List Interval).Perm
        ((pairIntersections ⟨[⟨.Closed, .fin 0, .fin 10, .Closed⟩]⟩
          ⟨[⟨.Closed, .fin 5, .fin 20, .Closed⟩]⟩).filterMap id)
      ∧ ([⟨.Closed, .fin 5, .fin 10, .Closed⟩] : List Interval).Pairwise loSorted
      ∧ ([⟨.Closed, .fin 5, .fin 10, .Closed⟩] : List Interval) ≠ []) :=
  ⟨by decide,
    (C6_intersect_pairwise_sorted ⟨[⟨.Closed, .fin 0, .fin 10, .Closed⟩]⟩
      ⟨[⟨.Closed, .fin 5, .fin 20, .Closed⟩]⟩).1
      ⟨[⟨.Closed, .fin 5, .fin 10, .Closed⟩]⟩ (by decide)⟩

/-- Claim C7 witness: `new` rejects `lo = 7 > 3 = hi` and accepts the point `[5,5]`
unchanged, by the theorem at those inputs. -/
theorem C7_witness :
    Interval.new .Open (.fin 7) (.fin 3) .Open = .error .LoIsGreaterThanHi
    ∧ Interval.new .Closed (.fin 5) (.fin 5) .Closed
        = .ok ⟨.Closed, .fin 5, .fin 5, .Closed⟩ :=
  ⟨(C7_new_validation .Open (.fin 7) (.fin 3) .Open).1.mpr (by decide),
    (C7_new_validation .Closed (.fin 5) (.fin 5) .Closed).2.2 rfl⟩

end GptCommon
